import Mathlib

/-!
Verification of the K2 Bayesian-network structure-search program
(`project1.py`): sufficient-statistics counting, Dirichlet-multinomial
Bayesian scoring and the ordering-constrained greedy K2 search.

Embedding conventions:
* A networkx `DiGraph` is a duplicate-free insertion-ordered node list plus
  a duplicate-free insertion-ordered edge list (`add_edge` appends missing
  endpoints and the missing edge, `remove_edge` removes only the edge,
  exactly as networkx does).  `predecessors(i)` is the in-neighbour list in
  insertion order, which is how networkx iterates adjacency.
* Data rows are lists of integers (numpy integer cells); count tensors are
  lists of rows of natural numbers (the numpy float tensors only ever hold
  naturals, incremented by 1.0).
* numpy integer indexing (negative indices wrap from the end, anything
  outside `-len .. len-1` raises) is modelled by `pyIdx`; the source's
  `try/except` + `sys.exit(1)` in `statistics` is modelled as the `.error`
  case of `Except Unit`.
* `scipy.special.loggamma` on the positive reals is `Real.log ∘ Real.Gamma`.
-/

/-- Decidable equality of `Except` results, so that concrete runs of the
embedded fallible operations can be checked by `decide`. -/
instance exceptDecEq {ε α : Type} [DecidableEq ε] [DecidableEq α] :
    DecidableEq (Except ε α) := fun a b =>
  match a, b with
  | Except.error x, Except.error y => decidable_of_iff (x = y) (by simp)
  | Except.error _, Except.ok _ => isFalse (by simp)
  | Except.ok _, Except.error _ => isFalse (by simp)
  | Except.ok x, Except.ok y => decidable_of_iff (x = y) (by simp)

/-- A networkx-style directed graph: insertion-ordered node and edge lists. -/
structure DiGraph where
  nodes : List ℕ
  edges : List (ℕ × ℕ)
deriving DecidableEq

/-- Append a node unless it is already present (networkx node insertion). -/
def addNode (l : List ℕ) (x : ℕ) : List ℕ :=
  if x ∈ l then l else l ++ [x]

/-- `graph.add_edge(j, i)`: networkx inserts missing endpoints as nodes and
appends the edge unless it is already present. -/
def DiGraph.addEdge (G : DiGraph) (j i : ℕ) : DiGraph :=
  ⟨addNode (addNode G.nodes j) i,
    if (j, i) ∈ G.edges then G.edges else G.edges ++ [(j, i)]⟩

/-- `graph.remove_edge(j, i)`: networkx keeps the endpoints as nodes. -/
def DiGraph.removeEdge (G : DiGraph) (j i : ℕ) : DiGraph :=
  ⟨G.nodes, G.edges.erase (j, i)⟩

/-- `graph.predecessors(i)`: the in-neighbours of `i` in insertion order. -/
def DiGraph.preds (G : DiGraph) (i : ℕ) : List ℕ :=
  (G.edges.filter (fun e => e.2 = i)).map Prod.fst

/-- `a` reaches `b` along a nonempty directed path of `G`. -/
def DiGraph.Reaches (G : DiGraph) (a b : ℕ) : Prop :=
  Relation.TransGen (fun x y => (x, y) ∈ G.edges) a b

/-- A directed graph is acyclic when no node reaches itself. -/
def DiGraph.Acyclic (G : DiGraph) : Prop :=
  ∀ a, ¬ G.Reaches a a

/-- The `Variable` class: only the state cardinality `r` matters to the core
(its `variable` name field is used only at the I/O boundary). -/
structure Variable where
  r : ℕ
deriving DecidableEq

/-- The `K2Search` class holds the caller-supplied variable ordering. -/
structure K2Search where
  ordering : List ℕ

/-- numpy integer indexing into an axis of length `L`: indices in
`0 .. L-1` are taken as is, `-L .. -1` wrap from the end, anything else
raises `IndexError`. -/
def pyIdx (L : ℕ) (t : ℤ) : Option ℕ :=
  if 0 ≤ t ∧ t < (L : ℤ) then some t.toNat
  else if -(L : ℤ) ≤ t ∧ t < 0 then some (t + (L : ℤ)).toNat
  else none

/-- `M[j, k] += 1.0` on a 2-D count tensor under numpy indexing; `none`
models the raised `IndexError`. -/
def incr2 (m : List (List ℕ)) (j k : ℤ) : Option (List (List ℕ)) :=
  match pyIdx m.length j with
  | none => none
  | some j' =>
    let row := m.getD j' []
    match pyIdx row.length k with
    | none => none
    | some k' => some (m.set j' (row.set k' (row.getD k' 0 + 1)))

/-- `np.cumprod`: running products of a list. -/
def cumprod : List ℕ → List ℕ
  | [] => []
  | a :: t => a :: (cumprod t).map (a * ·)

/-- `sub2ind(siz, x)`: weights `[1] + cumprod(siz[:-1])` dotted with
`[element - 1 for element in x]`, exactly as the source writes it. -/
def sub2ind (siz : List ℕ) (x : List ℤ) : ℤ :=
  (List.zipWith (fun (w : ℕ) (e : ℤ) => (w : ℤ) * (e - 1))
    ((1 : ℕ) :: cumprod siz.dropLast) x).sum

/-- Body of the inner loop of `statistics` for one data row `o` and one
variable `i`: `k = o[i] - 1`; `j = 1` when `i` has no parents, otherwise
`sub2ind` of the parent cardinalities and `o[parents] - 1`; then
`M[i][j - 1, k - 1] += 1.0`, with the `except:`/`sys.exit(1)` handler
modelled by `.error ()`. -/
def statStep (r : List ℕ) (G : DiGraph) (o : List ℤ)
    (M : List (List (List ℕ))) (i : ℕ) : Except Unit (List (List (List ℕ))) :=
  let k : ℤ := o.getD i 0 - 1
  let parents := G.preds i
  let j : ℤ :=
    if parents = [] then 1
    else sub2ind (parents.map fun p => r.getD p 0)
      (parents.map fun p => o.getD p 0 - 1)
  match incr2 (M.getD i []) (j - 1) (k - 1) with
  | none => Except.error ()
  | some mi => Except.ok (M.set i mi)

/-- `statistics(vars, G, D)`: per-variable count tensors of shape
`(q_i, r_i)` with `q_i = prod(r_j for j in G.predecessors(i))`, filled by
running `statStep` over every row and variable. -/
def statistics (vars : List Variable) (G : DiGraph) (D : List (List ℤ)) :
    Except Unit (List (List (List ℕ))) :=
  let n := vars.length
  let r := vars.map Variable.r
  let q := (List.range n).map fun i => ((G.preds i).map fun j => r.getD j 0).prod
  let M0 := (List.range n).map fun i =>
    List.replicate (q.getD i 0) (List.replicate (r.getD i 0) 0)
  D.foldlM (fun M o => (List.range n).foldlM (statStep r G o) M) M0

/-- `prior(variables, graph)`: all-ones tensors of the same shapes as the
counts produced by `statistics`. -/
def prior (vars : List Variable) (G : DiGraph) : List (List (List ℕ)) :=
  let n := vars.length
  let r := vars.map Variable.r
  let q := (List.range n).map fun i => ((G.preds i).map fun j => r.getD j 0).prod
  (List.range n).map fun i =>
    List.replicate (q.getD i 0) (List.replicate (r.getD i 0) 1)

/-- `scipy.special.loggamma` on positive real arguments. -/
noncomputable def loggamma (x : ℝ) : ℝ := Real.log (Real.Gamma x)

/-- Cast a natural-number tensor to the reals (numpy stores floats). -/
def matOfNat (A : List (List ℕ)) : List (List ℝ) := A.map (List.map Nat.cast)

/-- Elementwise sum of two same-shape 2-D arrays (`alpha + M`). -/
def matAdd (A B : List (List ℝ)) : List (List ℝ) :=
  List.zipWith (List.zipWith (· + ·)) A B

/-- `np.sum` over all entries of a 2-D array. -/
def matSum (A : List (List ℝ)) : ℝ := (A.map List.sum).sum

/-- `np.sum(·, axis=1)`: the list of row sums of a 2-D array. -/
def rowSums (A : List (List ℝ)) : List ℝ := A.map List.sum

/-- `bayesian_score_component(M, alpha)` exactly as the source computes it:
`np.sum(loggamma(alpha + M)) - np.sum(loggamma(alpha))
 + np.sum(loggamma(alpha_0)) - np.sum(loggamma(alpha_0 + np.sum(M, axis=1)))`
with `alpha_0 = np.sum(alpha, axis=1)`. -/
noncomputable def bayesian_score_component (M alpha : List (List ℝ)) : ℝ :=
  let alpha_0 := rowSums alpha
  matSum ((matAdd alpha M).map (List.map loggamma))
    - matSum (alpha.map (List.map loggamma))
    + (alpha_0.map loggamma).sum
    - (List.zipWith (fun a0 ms => loggamma (a0 + ms)) alpha_0 (rowSums M)).sum

/-- `bayesian_score(variables, graph, data)`: counts, uniform prior, and the
sum of the per-variable components; a `sys.exit` inside `statistics`
propagates as `.error`. -/
noncomputable def bayesian_score (vars : List Variable) (G : DiGraph)
    (D : List (List ℤ)) : Except Unit ℝ :=
  (statistics vars G D).map fun M =>
    let alpha := prior vars G
    ((List.range vars.length).map fun i =>
      bayesian_score_component (matOfNat (M.getD i []))
        (matOfNat (alpha.getD i []))).sum

open Classical in
/-- One pass of the candidate scan `for j in self.ordering[:k]` of
`K2Search.fit`, threading the accumulator `(y_best, j_best)` (initially
`(-np.inf, 0)`) and the working graph: each untried candidate edge is
added, scored, compared against `y_best` and removed again. -/
noncomputable def k2ScanAux (v : List Variable) (D : List (List ℤ)) (i : ℕ) :
    List ℕ → WithBot ℝ × ℕ → DiGraph → Except Unit (WithBot ℝ × ℕ × DiGraph)
  | [], acc, G => Except.ok (acc.1, acc.2, G)
  | j :: rest, acc, G =>
    if (j, i) ∈ G.edges then k2ScanAux v D i rest acc G
    else
      match bayesian_score v (G.addEdge j i) D with
      | Except.error e => Except.error e
      | Except.ok y' =>
        let G2 := (G.addEdge j i).removeEdge j i
        if acc.1 < (y' : WithBot ℝ) then k2ScanAux v D i rest ((y' : WithBot ℝ), j) G2
        else k2ScanAux v D i rest acc G2

/-- The full candidate scan of one inner-loop iteration, started from
`y_best, j_best = -np.inf, 0`. -/
noncomputable def k2Scan (v : List Variable) (D : List (List ℤ)) (i : ℕ)
    (cands : List ℕ) (G : DiGraph) : Except Unit (WithBot ℝ × ℕ × DiGraph) :=
  k2ScanAux v D i cands ((⊥ : WithBot ℝ), 0) G

open Classical in
/-- The `while True:` inner loop of `K2Search.fit` for child `i` with fixed
candidate list: scan all candidates, and either commit the best edge and
loop (`if y_best > y`), or break returning the working graph. -/
noncomputable def k2Inner (v : List Variable) (D : List (List ℤ)) (i : ℕ)
    (cands : List ℕ) (y : WithBot ℝ) (G : DiGraph) : Except Unit DiGraph :=
  match h : k2Scan v D i cands G with
  | Except.error e => Except.error e
  | Except.ok (yb, jb, G') =>
    if h2 : y < yb then k2Inner v D i cands yb (G'.addEdge jb i)
    else Except.ok G'
termination_by (cands.toFinset.filter (fun j => (j, i) ∉ G.edges)).card
decreasing_by
  simp only [k2Scan] at h
  have hp : ∀ (l : List ℕ) (acc : WithBot ℝ × ℕ) (Gc : DiGraph)
      (yb' : WithBot ℝ) (jb' : ℕ) (Gc' : DiGraph),
      k2ScanAux v D i l acc Gc = Except.ok (yb', jb', Gc') →
      Gc'.edges = Gc.edges ∧
        ((yb' = acc.1 ∧ jb' = acc.2) ∨
          (jb' ∈ l ∧ (jb', i) ∉ Gc.edges)) := by
    intro l
    induction l with
    | nil =>
      intro acc Gc yb' jb' Gc' hres
      simp only [k2ScanAux, Except.ok.injEq, Prod.mk.injEq] at hres
      obtain ⟨h4, h5, h6⟩ := hres
      exact ⟨h6 ▸ rfl, Or.inl ⟨h4.symm, h5.symm⟩⟩
    | cons a t ih =>
      intro acc Gc yb' jb' Gc' hres
      simp only [k2ScanAux] at hres
      by_cases hedge : (a, i) ∈ Gc.edges
      · rw [if_pos hedge] at hres
        obtain ⟨he, hrest⟩ := ih acc Gc yb' jb' Gc' hres
        refine ⟨he, ?_⟩
        rcases hrest with h1 | h2'
        · exact Or.inl h1
        · exact Or.inr ⟨List.mem_cons_of_mem _ h2'.1, h2'.2⟩
      · rw [if_neg hedge] at hres
        have hG2 : ((Gc.addEdge a i).removeEdge a i).edges = Gc.edges := by
          simp only [DiGraph.addEdge, DiGraph.removeEdge, if_neg hedge]
          rw [List.erase_append_right _ hedge]
          simp
        split at hres
        · exact Except.noConfusion hres
        · rename_i y' heq
          by_cases hlt : acc.1 < (y' : WithBot ℝ)
          · rw [if_pos hlt] at hres
            obtain ⟨he, hrest⟩ := ih _ _ _ _ _ hres
            rw [hG2] at he
            refine ⟨he, ?_⟩
            rcases hrest with ⟨hy, hj⟩ | h2'
            · refine Or.inr ⟨?_, ?_⟩
              · rw [hj]; exact List.mem_cons_self a t
              · rw [hj]; exact hedge
            · exact Or.inr ⟨List.mem_cons_of_mem _ h2'.1, hG2 ▸ h2'.2⟩
          · rw [if_neg hlt] at hres
            obtain ⟨he, hrest⟩ := ih _ _ _ _ _ hres
            rw [hG2] at he
            refine ⟨he, ?_⟩
            rcases hrest with h1 | h2'
            · exact Or.inl h1
            · exact Or.inr ⟨List.mem_cons_of_mem _ h2'.1, hG2 ▸ h2'.2⟩
  obtain ⟨hE, hdisj⟩ := hp cands ((⊥ : WithBot ℝ), 0) G yb jb G' h
  have hybot : yb ≠ ⊥ := by
    intro hb
    rw [hb] at h2
    exact not_lt_bot h2
  rcases hdisj with ⟨hb, _⟩ | ⟨hmem, hnedge⟩
  · exact absurd hb hybot
  · have hsub : cands.toFinset.filter (fun j => (j, i) ∉ (DiGraph.addEdge G' jb i).edges)
        ⊆ cands.toFinset.filter (fun j => (j, i) ∉ G.edges) := by
      intro x hx
      simp only [Finset.mem_filter, DiGraph.addEdge, hE, if_neg hnedge] at hx ⊢
      exact ⟨hx.1, fun hxe => hx.2 (List.mem_append_left _ hxe)⟩
    have hjbin : jb ∈ cands.toFinset.filter (fun j => (j, i) ∉ G.edges) := by
      simp only [Finset.mem_filter, List.mem_toFinset]
      exact ⟨hmem, hnedge⟩
    have hjbout : jb ∉ cands.toFinset.filter
        (fun j => (j, i) ∉ (DiGraph.addEdge G' jb i).edges) := by
      intro hx
      rw [Finset.mem_filter] at hx
      refine hx.2 ?_
      simp only [DiGraph.addEdge, hE, if_neg hnedge]
      simp
    exact Finset.card_lt_card ((Finset.ssubset_iff_of_subset hsub).mpr
      ⟨jb, hjbin, hjbout⟩)

/-- The outer loop `for k, i in enumerate(self.ordering[1:])` of
`K2Search.fit`, with the enumeration counter `k` made explicit: score the
working graph, then run the inner loop for child `i` with candidate list
`self.ordering[:k]`. -/
noncomputable def k2Outer (v : List Variable) (D : List (List ℤ))
    (ordering : List ℕ) : ℕ → List ℕ → DiGraph → Except Unit DiGraph
  | _, [], G => Except.ok G
  | k, i :: rest, G =>
    match bayesian_score v G D with
    | Except.error e => Except.error e
    | Except.ok y =>
      match k2Inner v D i (ordering.take k) (y : WithBot ℝ) G with
      | Except.error e => Except.error e
      | Except.ok G' => k2Outer v D ordering (k + 1) rest G'

/-- `K2Search.fit(variables, data)`: start from the empty graph on nodes
`range(len(variables))` and run the outer loop over `ordering[1:]`. -/
noncomputable def K2Search.fit (s : K2Search) (v : List Variable)
    (D : List (List ℤ)) : Except Unit DiGraph :=
  k2Outer v D s.ordering 0 (s.ordering.drop 1)
    ⟨List.range v.length, []⟩

open Classical in
/-- Step-indexed form of the inner `while True:` loop: `none` means the
fuel ran out before the loop broke.  Used to state that the loop always
terminates within a computable bound. -/
noncomputable def k2InnerFuel (v : List Variable) (D : List (List ℤ)) (i : ℕ)
    (cands : List ℕ) : ℕ → WithBot ℝ → DiGraph → Option (Except Unit DiGraph)
  | 0, _, _ => none
  | fuel + 1, y, G =>
    match k2Scan v D i cands G with
    | Except.error e => some (Except.error e)
    | Except.ok (yb, jb, G') =>
      if y < yb then k2InnerFuel v D i cands fuel yb (G'.addEdge jb i)
      else some (Except.ok G')

/-- The candidate scan threads the graph back with its edge set intact
(each tentative `add_edge` is paired with a `remove_edge`), and whenever it
reports a best candidate it is an untried member of the candidate list. -/
theorem k2ScanAux_spec (v : List Variable) (D : List (List ℤ)) (i : ℕ) :
    ∀ (l : List ℕ) (acc : WithBot ℝ × ℕ) (Gc : DiGraph)
      (yb' : WithBot ℝ) (jb' : ℕ) (Gc' : DiGraph),
      k2ScanAux v D i l acc Gc = Except.ok (yb', jb', Gc') →
      Gc'.edges = Gc.edges ∧
        ((yb' = acc.1 ∧ jb' = acc.2) ∨
          (jb' ∈ l ∧ (jb', i) ∉ Gc.edges)) := by
  intro l
  induction l with
  | nil =>
    intro acc Gc yb' jb' Gc' hres
    simp only [k2ScanAux, Except.ok.injEq, Prod.mk.injEq] at hres
    obtain ⟨h4, h5, h6⟩ := hres
    exact ⟨h6 ▸ rfl, Or.inl ⟨h4.symm, h5.symm⟩⟩
  | cons a t ih =>
    intro acc Gc yb' jb' Gc' hres
    simp only [k2ScanAux] at hres
    by_cases hedge : (a, i) ∈ Gc.edges
    · rw [if_pos hedge] at hres
      obtain ⟨he, hrest⟩ := ih acc Gc yb' jb' Gc' hres
      refine ⟨he, ?_⟩
      rcases hrest with h1 | h2'
      · exact Or.inl h1
      · exact Or.inr ⟨List.mem_cons_of_mem _ h2'.1, h2'.2⟩
    · rw [if_neg hedge] at hres
      have hG2 : ((Gc.addEdge a i).removeEdge a i).edges = Gc.edges := by
        simp only [DiGraph.addEdge, DiGraph.removeEdge, if_neg hedge]
        rw [List.erase_append_right _ hedge]
        simp
      split at hres
      · exact Except.noConfusion hres
      · rename_i y' heq
        by_cases hlt : acc.1 < (y' : WithBot ℝ)
        · rw [if_pos hlt] at hres
          obtain ⟨he, hrest⟩ := ih _ _ _ _ _ hres
          rw [hG2] at he
          refine ⟨he, ?_⟩
          rcases hrest with ⟨hy, hj⟩ | h2'
          · refine Or.inr ⟨?_, ?_⟩
            · rw [hj]; exact List.mem_cons_self a t
            · rw [hj]; exact hedge
          · exact Or.inr ⟨List.mem_cons_of_mem _ h2'.1, hG2 ▸ h2'.2⟩
        · rw [if_neg hlt] at hres
          obtain ⟨he, hrest⟩ := ih _ _ _ _ _ hres
          rw [hG2] at he
          refine ⟨he, ?_⟩
          rcases hrest with h1 | h2'
          · exact Or.inl h1
          · exact Or.inr ⟨List.mem_cons_of_mem _ h2'.1, hG2 ▸ h2'.2⟩

/-- Committing a fresh candidate edge strictly shrinks the set of untried
candidate edges into `i` (the measure of the inner loop). -/
theorem card_nonEdge_decrease (cands : List ℕ) (i jb : ℕ) (G G' : DiGraph)
    (hE : G'.edges = G.edges) (hmem : jb ∈ cands) (hnedge : (jb, i) ∉ G.edges) :
    (cands.toFinset.filter (fun j => (j, i) ∉ (G'.addEdge jb i).edges)).card <
      (cands.toFinset.filter (fun j => (j, i) ∉ G.edges)).card := by
  have hsub : cands.toFinset.filter (fun j => (j, i) ∉ (DiGraph.addEdge G' jb i).edges)
      ⊆ cands.toFinset.filter (fun j => (j, i) ∉ G.edges) := by
    intro x hx
    simp only [Finset.mem_filter, DiGraph.addEdge, hE, if_neg hnedge] at hx ⊢
    exact ⟨hx.1, fun hxe => hx.2 (List.mem_append_left _ hxe)⟩
  have hjbin : jb ∈ cands.toFinset.filter (fun j => (j, i) ∉ G.edges) := by
    simp only [Finset.mem_filter, List.mem_toFinset]
    exact ⟨hmem, hnedge⟩
  have hjbout : jb ∉ cands.toFinset.filter
      (fun j => (j, i) ∉ (DiGraph.addEdge G' jb i).edges) := by
    intro hx
    rw [Finset.mem_filter] at hx
    refine hx.2 ?_
    simp only [DiGraph.addEdge, hE, if_neg hnedge]
    simp
  exact Finset.card_lt_card ((Finset.ssubset_iff_of_subset hsub).mpr
    ⟨jb, hjbin, hjbout⟩)

/-- Unfolding `k2Inner` when the scan propagates an error. -/
theorem k2Inner_error (v : List Variable) (D : List (List ℤ)) (i : ℕ)
    (cands : List ℕ) (y : WithBot ℝ) (G : DiGraph) (e : Unit)
    (h : k2Scan v D i cands G = Except.error e) :
    k2Inner v D i cands y G = Except.error e := by
  rw [k2Inner.eq_def, h]

/-- Unfolding `k2Inner` when no strictly improving candidate exists: the
loop breaks and returns the working graph. -/
theorem k2Inner_stop (v : List Variable) (D : List (List ℤ)) (i : ℕ)
    (cands : List ℕ) (y yb : WithBot ℝ) (jb : ℕ) (G G' : DiGraph)
    (h : k2Scan v D i cands G = Except.ok (yb, jb, G')) (h2 : ¬ y < yb) :
    k2Inner v D i cands y G = Except.ok G' := by
  rw [k2Inner.eq_def, h]
  simp [h2]

/-- Unfolding `k2Inner` when the best candidate strictly improves: the
edge is committed and the loop runs again. -/
theorem k2Inner_step (v : List Variable) (D : List (List ℤ)) (i : ℕ)
    (cands : List ℕ) (y yb : WithBot ℝ) (jb : ℕ) (G G' : DiGraph)
    (h : k2Scan v D i cands G = Except.ok (yb, jb, G')) (h2 : y < yb) :
    k2Inner v D i cands y G = k2Inner v D i cands yb (G'.addEdge jb i) := by
  rw [k2Inner.eq_def, h]
  simp [h2]

/-- The step-indexed inner loop agrees with the recursively defined one as
soon as the fuel exceeds the number of untried candidate edges. -/
theorem k2Inner_eq_fuel (v : List Variable) (D : List (List ℤ)) (i : ℕ)
    (cands : List ℕ) : ∀ (fuel : ℕ) (y : WithBot ℝ) (G : DiGraph),
    (cands.toFinset.filter (fun j => (j, i) ∉ G.edges)).card < fuel →
    k2InnerFuel v D i cands fuel y G = some (k2Inner v D i cands y G) := by
  intro fuel
  induction fuel with
  | zero => intro y G h; exact absurd h (Nat.not_lt_zero _)
  | succ m ih =>
    intro y G hlt
    cases hscan : k2Scan v D i cands G with
    | error e =>
      rw [k2InnerFuel, hscan, k2Inner_error v D i cands y G e hscan]
    | ok res =>
      obtain ⟨yb, jb, G'⟩ := res
      by_cases h2 : y < yb
      · rw [k2InnerFuel, hscan]
        show (if y < yb then k2InnerFuel v D i cands m yb (G'.addEdge jb i)
          else some (Except.ok G')) = some (k2Inner v D i cands y G)
        rw [if_pos h2, k2Inner_step v D i cands y yb jb G G' hscan h2]
        have hybot : yb ≠ ⊥ := by
          intro hb
          rw [hb] at h2
          exact not_lt_bot h2
        obtain ⟨hE, hdisj⟩ := k2ScanAux_spec v D i cands ((⊥ : WithBot ℝ), 0)
          G yb jb G' hscan
        rcases hdisj with ⟨hb, _⟩ | ⟨hmem, hnedge⟩
        · exact absurd hb hybot
        · exact ih yb (G'.addEdge jb i)
            (lt_of_lt_of_le (card_nonEdge_decrease cands i jb G G' hE hmem hnedge)
              (Nat.lt_succ_iff.mp hlt))
      · rw [k2InnerFuel, hscan]
        show (if y < yb then k2InnerFuel v D i cands m yb (G'.addEdge jb i)
          else some (Except.ok G')) = some (k2Inner v D i cands y G)
        rw [if_neg h2, k2Inner_stop v D i cands y yb jb G G' hscan h2]

/-- Every edge of a graph produced by the step-indexed inner loop is either
an original edge or a committed candidate edge `(j, i)` with `j` from the
candidate list. -/
theorem k2InnerFuel_inv (v : List Variable) (D : List (List ℤ)) (i : ℕ)
    (cands : List ℕ) (good : ℕ × ℕ → Prop)
    (hc : ∀ j ∈ cands, good (j, i)) :
    ∀ (fuel : ℕ) (y : WithBot ℝ) (G Gf : DiGraph),
    (∀ e ∈ G.edges, good e) →
    k2InnerFuel v D i cands fuel y G = some (Except.ok Gf) →
    ∀ e ∈ Gf.edges, good e := by
  intro fuel
  induction fuel with
  | zero => intro y G Gf _ hrun; exact absurd hrun (by simp [k2InnerFuel])
  | succ m ih =>
    intro y G Gf hG hrun
    rw [k2InnerFuel] at hrun
    cases hscan : k2Scan v D i cands G with
    | error e =>
      rw [hscan] at hrun
      simp at hrun
    | ok res =>
      obtain ⟨yb, jb, G'⟩ := res
      rw [hscan] at hrun
      replace hrun : (if y < yb then k2InnerFuel v D i cands m yb (G'.addEdge jb i)
          else some (Except.ok G')) = some (Except.ok Gf) := hrun
      obtain ⟨hE, hdisj⟩ := k2ScanAux_spec v D i cands ((⊥ : WithBot ℝ), 0)
        G yb jb G' hscan
      by_cases h2 : y < yb
      · rw [if_pos h2] at hrun
        have hybot : yb ≠ ⊥ := by
          intro hb
          rw [hb] at h2
          exact not_lt_bot h2
        rcases hdisj with ⟨hb, _⟩ | ⟨hmem, hnedge⟩
        · exact absurd hb hybot
        · refine ih yb (G'.addEdge jb i) Gf ?_ hrun
          intro e he
          simp only [DiGraph.addEdge, hE, if_neg hnedge] at he
          rcases List.mem_append.mp he with he | he
          · exact hG e he
          · rw [List.mem_singleton] at he
            subst he
            exact hc jb hmem
      · rw [if_neg h2] at hrun
        simp only [Option.some.injEq, Except.ok.injEq] at hrun
        subst hrun
        exact fun e he => hG e (hE ▸ he)

/-- Transfer of `k2InnerFuel_inv` to the recursive inner loop. -/
theorem k2Inner_inv (v : List Variable) (D : List (List ℤ)) (i : ℕ)
    (cands : List ℕ) (good : ℕ × ℕ → Prop)
    (hc : ∀ j ∈ cands, good (j, i)) (y : WithBot ℝ) (G Gf : DiGraph)
    (hG : ∀ e ∈ G.edges, good e)
    (hrun : k2Inner v D i cands y G = Except.ok Gf) :
    ∀ e ∈ Gf.edges, good e := by
  have hfuel := k2Inner_eq_fuel v D i cands
    ((cands.toFinset.filter (fun j => (j, i) ∉ G.edges)).card + 1) y G
    (Nat.lt_succ_self _)
  rw [hrun] at hfuel
  exact k2InnerFuel_inv v D i cands good hc _ y G Gf hG hfuel

/-- Every edge of a graph produced by the outer loop is either an original
edge or a pair `(j, ordering[k'])` with `j` drawn from `ordering[:k]` for
the matching enumeration counter. -/
theorem k2Outer_inv (v : List Variable) (D : List (List ℤ))
    (ordering : List ℕ) (good : ℕ × ℕ → Prop) :
    ∀ (tail : List ℕ) (k : ℕ) (G Gf : DiGraph),
    (∀ (m : ℕ) (i' : ℕ), tail.get? m = some i' →
      ∀ j ∈ ordering.take (k + m), good (j, i')) →
    (∀ e ∈ G.edges, good e) →
    k2Outer v D ordering k tail G = Except.ok Gf →
    ∀ e ∈ Gf.edges, good e := by
  intro tail
  induction tail with
  | nil =>
    intro k G Gf _ hG hrun
    simp only [k2Outer, Except.ok.injEq] at hrun
    exact hrun ▸ hG
  | cons i' rest ih =>
    intro k G Gf hcond hG hrun
    simp only [k2Outer] at hrun
    split at hrun
    · exact Except.noConfusion hrun
    · rename_i y hy
      split at hrun
      · exact Except.noConfusion hrun
      · rename_i G' hG'
        refine ih (k + 1) G' Gf ?_ ?_ hrun
        · intro m i'' hm j hj
          have := hcond (m + 1) i'' (by simpa using hm) j
          apply this
          have harith : k + (m + 1) = k + 1 + m := by omega
          rw [harith]
          exact hj
        · exact k2Inner_inv v D i' (ordering.take k) good
            (hcond 0 i' rfl) (y : WithBot ℝ) G G' hG hG'

/-- A graph whose edges all strictly increase a rank function is acyclic. -/
theorem DiGraph.acyclic_of_increasing (G : DiGraph) (f : ℕ → ℕ)
    (h : ∀ e ∈ G.edges, f e.1 < f e.2) : G.Acyclic := by
  have hmono : ∀ a b, G.Reaches a b → f a < f b := by
    intro a b hr
    induction hr with
    | single hs => exact h _ hs
    | tail hs hab ih => exact lt_trans ih (h _ hab)
  exact fun a hra => lt_irrefl (f a) (hmono a a hra)

/-- In a duplicate-free list, the index of the `m`-th element is `m`. -/
theorem nodup_indexOf_getElem (l : List ℕ) (h : l.Nodup) (m : ℕ)
    (hm : m < l.length) : l.indexOf l[m] = m := by
  have hmem : l[m] ∈ l := List.getElem_mem hm
  have hlt : l.indexOf l[m] < l.length := List.indexOf_lt_length.2 hmem
  have heq : l[l.indexOf l[m]] = l[m] := List.getElem_indexOf hlt
  exact (List.Nodup.getElem_inj_iff h).mp heq

/-- `loggamma` at a shifted natural argument is the log factorial. -/
theorem loggamma_nat_add_one (n : ℕ) :
    loggamma ((n : ℝ) + 1) = Real.log (n.factorial) := by
  rw [loggamma, Real.Gamma_nat_eq_factorial]

/-- `loggamma 1 = 0`. -/
theorem loggamma_one : loggamma 1 = 0 := by
  rw [loggamma, Real.Gamma_one, Real.log_one]

/-- `loggamma 2 = 0`. -/
theorem loggamma_two : loggamma 2 = 0 := by
  rw [loggamma, Real.Gamma_two, Real.log_one]

/-- `loggamma 3 = log 2`. -/
theorem loggamma_three : loggamma 3 = Real.log 2 := by
  have h := loggamma_nat_add_one 2
  norm_num [Nat.factorial] at h
  exact h

/-- `loggamma 4 = log 6`. -/
theorem loggamma_four : loggamma 4 = Real.log 6 := by
  have h := loggamma_nat_add_one 3
  norm_num [Nat.factorial] at h
  exact h

/-- `loggamma 6 = log 120`. -/
theorem loggamma_six : loggamma 6 = Real.log 120 := by
  have h := loggamma_nat_add_one 5
  norm_num [Nat.factorial] at h
  exact h

/-- When counting succeeds, the score is the `.ok` sum of components. -/
theorem bayesian_score_ok (v : List Variable) (G : DiGraph)
    (D : List (List ℤ)) (M : List (List (List ℕ)))
    (h : statistics v G D = Except.ok M) :
    bayesian_score v G D = Except.ok
      (((List.range v.length).map fun i =>
        bayesian_score_component (matOfNat (M.getD i []))
          (matOfNat ((prior v G).getD i []))).sum) := by
  simp only [bayesian_score, h, Except.map]

/-- Component score of a parentless binary variable counted `[[2, 2]]`
under the uniform prior. -/
theorem comp_22 : bayesian_score_component (matOfNat [[2, 2]])
    (matOfNat [[1, 1]]) = 2 * Real.log 2 - Real.log 120 := by
  simp only [bayesian_score_component, matOfNat, matAdd, matSum, rowSums,
    List.map_cons, List.map_nil, List.zipWith_cons_cons, List.zipWith_nil_right,
    List.sum_cons, List.sum_nil]
  norm_num
  rw [loggamma_one, loggamma_two, loggamma_three, loggamma_six]
  ring

/-- Component score of a binary variable with one binary parent counted
`[[1, 1], [1, 1]]` under the uniform prior. -/
theorem comp_1111 : bayesian_score_component (matOfNat [[1, 1], [1, 1]])
    (matOfNat [[1, 1], [1, 1]]) = -(2 * Real.log 6) := by
  simp only [bayesian_score_component, matOfNat, matAdd, matSum, rowSums,
    List.map_cons, List.map_nil, List.zipWith_cons_cons, List.zipWith_nil_right,
    List.sum_cons, List.sum_nil]
  norm_num
  rw [loggamma_one, loggamma_two, loggamma_four]
  ring

/-- Component score of a constant variable (`r = 1`) with no data rows. -/
theorem comp_01 : bayesian_score_component (matOfNat [[0]])
    (matOfNat [[1]]) = 0 := by
  simp only [bayesian_score_component, matOfNat, matAdd, matSum, rowSums,
    List.map_cons, List.map_nil, List.zipWith_cons_cons, List.zipWith_nil_right,
    List.sum_cons, List.sum_nil]
  norm_num

/-- Total score of the empty graph on the three-binary-variable data set
(each variable counted `[[2, 2]]`). -/
theorem score_V3_empty :
    bayesian_score [⟨2⟩, ⟨2⟩, ⟨2⟩] ⟨List.range 3, []⟩
      [[1, 1, 1], [1, 1, 2], [2, 2, 1], [2, 2, 2]] =
    Except.ok (3 * (2 * Real.log 2 - Real.log 120)) := by
  have hstat : statistics [⟨2⟩, ⟨2⟩, ⟨2⟩] ⟨List.range 3, []⟩
      [[1, 1, 1], [1, 1, 2], [2, 2, 1], [2, 2, 2]] =
      Except.ok [[[2, 2]], [[2, 2]], [[2, 2]]] := by decide
  have hprior : prior [⟨2⟩, ⟨2⟩, ⟨2⟩] ⟨List.range 3, []⟩ =
      [[[1, 1]], [[1, 1]], [[1, 1]]] := by decide
  rw [bayesian_score_ok _ _ _ _ hstat, hprior]
  simp only [show List.range ([⟨2⟩, ⟨2⟩, ⟨2⟩] : List Variable).length = [0, 1, 2]
    from rfl, List.map_cons, List.map_nil, List.getD_cons_zero,
    List.getD_cons_succ, List.sum_cons, List.sum_nil, comp_22,
    Except.ok.injEq]
  ring

/-- Total score after tentatively adding the edge `0 → 2` on the
three-binary-variable data set (variable `2` counted `[[1,1],[1,1]]`). -/
theorem score_V3_edge02 :
    bayesian_score [⟨2⟩, ⟨2⟩, ⟨2⟩] ⟨List.range 3, [(0, 2)]⟩
      [[1, 1, 1], [1, 1, 2], [2, 2, 1], [2, 2, 2]] =
    Except.ok (2 * (2 * Real.log 2 - Real.log 120) - 2 * Real.log 6) := by
  have hstat : statistics [⟨2⟩, ⟨2⟩, ⟨2⟩] ⟨List.range 3, [(0, 2)]⟩
      [[1, 1, 1], [1, 1, 2], [2, 2, 1], [2, 2, 2]] =
      Except.ok [[[2, 2]], [[2, 2]], [[1, 1], [1, 1]]] := by decide
  have hprior : prior [⟨2⟩, ⟨2⟩, ⟨2⟩] ⟨List.range 3, [(0, 2)]⟩ =
      [[[1, 1]], [[1, 1]], [[1, 1], [1, 1]]] := by decide
  rw [bayesian_score_ok _ _ _ _ hstat, hprior]
  simp only [show List.range ([⟨2⟩, ⟨2⟩, ⟨2⟩] : List Variable).length = [0, 1, 2]
    from rfl, List.map_cons, List.map_nil, List.getD_cons_zero,
    List.getD_cons_succ, List.sum_cons, List.sum_nil, comp_22, comp_1111,
    Except.ok.injEq]
  ring

/-- The tentative edge `0 → 2` does not improve the total score on the
three-binary-variable data set: `log 120 ≤ log 144`. -/
theorem score_edge02_no_improvement :
    2 * (2 * Real.log 2 - Real.log 120) - 2 * Real.log 6 ≤
      3 * (2 * Real.log 2 - Real.log 120) := by
  have h1 : (2 : ℝ) * Real.log 2 = Real.log 4 := by
    rw [show (4 : ℝ) = 2 ^ 2 by norm_num, Real.log_pow]
    norm_num
  have h2 : (2 : ℝ) * Real.log 6 = Real.log 36 := by
    rw [show (36 : ℝ) = 6 ^ 2 by norm_num, Real.log_pow]
    norm_num
  have h3 : Real.log 120 ≤ Real.log 4 + Real.log 36 := by
    rw [← Real.log_mul (by norm_num) (by norm_num)]
    apply Real.log_le_log (by norm_num)
    norm_num
  linarith

/-- Score of the empty graph over two constant variables and no data. -/
theorem score_V1r1_empty :
    bayesian_score [⟨1⟩, ⟨1⟩] ⟨List.range 2, []⟩ [] = Except.ok 0 := by
  have hstat : statistics [⟨1⟩, ⟨1⟩] ⟨List.range 2, []⟩ [] =
      Except.ok [[[0]], [[0]]] := by decide
  have hprior : prior [⟨1⟩, ⟨1⟩] ⟨List.range 2, []⟩ = [[[1]], [[1]]] := by decide
  rw [bayesian_score_ok _ _ _ _ hstat, hprior]
  simp only [show List.range ([⟨1⟩, ⟨1⟩] : List Variable).length = [0, 1]
    from rfl, List.map_cons, List.map_nil, List.getD_cons_zero,
    List.getD_cons_succ, List.sum_cons, List.sum_nil, comp_01,
    Except.ok.injEq]
  norm_num

/-- Score of the one-edge graph over two constant variables and no data. -/
theorem score_V1r1_edge01 :
    bayesian_score [⟨1⟩, ⟨1⟩] ⟨List.range 2, [(0, 1)]⟩ [] = Except.ok 0 := by
  have hstat : statistics [⟨1⟩, ⟨1⟩] ⟨List.range 2, [(0, 1)]⟩ [] =
      Except.ok [[[0]], [[0]]] := by decide
  have hprior : prior [⟨1⟩, ⟨1⟩] ⟨List.range 2, [(0, 1)]⟩ = [[[1]], [[1]]] := by
    decide
  rw [bayesian_score_ok _ _ _ _ hstat, hprior]
  simp only [show List.range ([⟨1⟩, ⟨1⟩] : List Variable).length = [0, 1]
    from rfl, List.map_cons, List.map_nil, List.getD_cons_zero,
    List.getD_cons_succ, List.sum_cons, List.sum_nil, comp_01,
    Except.ok.injEq]
  norm_num

/-- The inner loop with an empty candidate list breaks at once: the scan
returns `y_best = -inf` and `-inf > y` never holds. -/
theorem k2Inner_nil (v : List Variable) (D : List (List ℤ)) (i : ℕ)
    (y : WithBot ℝ) (G : DiGraph) : k2Inner v D i [] y G = Except.ok G :=
  k2Inner_stop v D i [] y ⊥ 0 G G rfl (not_lt_bot)

/-- The candidate scan at ordering position 2 of the three-variable run:
candidate `0` is tried (edge `0 → 2` added, scored, removed), becoming the
best candidate, and the graph comes back unchanged. -/
theorem scan_V3_pos2 :
    k2Scan [⟨2⟩, ⟨2⟩, ⟨2⟩] [[1, 1, 1], [1, 1, 2], [2, 2, 1], [2, 2, 2]] 2 [0]
      ⟨List.range 3, []⟩ =
    Except.ok (((2 * (2 * Real.log 2 - Real.log 120) - 2 * Real.log 6 : ℝ) :
      WithBot ℝ), 0, ⟨List.range 3, []⟩) := by
  have hadd : (⟨List.range 3, []⟩ : DiGraph).addEdge 0 2 =
      ⟨List.range 3, [(0, 2)]⟩ := by decide
  have hrem : DiGraph.removeEdge ⟨List.range 3, [(0, 2)]⟩ 0 2 =
      ⟨List.range 3, []⟩ := by decide
  simp [k2Scan, k2ScanAux, hadd, score_V3_edge02, hrem, WithBot.bot_lt_coe]

/-- Full run of `K2Search.fit` on the three-binary-variable scenario
(`ordering = [0, 1, 2]`, variable 1 a copy of variable 0, variable 2
noise): the result is the empty graph. -/
theorem fit_V3_run :
    K2Search.fit ⟨[0, 1, 2]⟩ [⟨2⟩, ⟨2⟩, ⟨2⟩]
      [[1, 1, 1], [1, 1, 2], [2, 2, 1], [2, 2, 2]] =
    Except.ok ⟨List.range 3, []⟩ := by
  have hnlt : ¬ (((3 * (2 * Real.log 2 - Real.log 120) : ℝ) : WithBot ℝ) <
      ((2 * (2 * Real.log 2 - Real.log 120) - 2 * Real.log 6 : ℝ) : WithBot ℝ)) := by
    rw [WithBot.coe_lt_coe]
    exact not_lt.mpr score_edge02_no_improvement
  have hstop := k2Inner_stop [⟨2⟩, ⟨2⟩, ⟨2⟩]
    [[1, 1, 1], [1, 1, 2], [2, 2, 1], [2, 2, 2]] 2 [0]
    ((3 * (2 * Real.log 2 - Real.log 120) : ℝ) : WithBot ℝ)
    ((2 * (2 * Real.log 2 - Real.log 120) - 2 * Real.log 6 : ℝ) : WithBot ℝ) 0
    ⟨List.range 3, []⟩ ⟨List.range 3, []⟩ scan_V3_pos2 hnlt
  simp only [K2Search.fit,
    show ([0, 1, 2] : List ℕ).drop 1 = [1, 2] from rfl,
    show ([⟨2⟩, ⟨2⟩, ⟨2⟩] : List Variable).length = 3 from rfl,
    k2Outer, score_V3_empty,
    show ([0, 1, 2] : List ℕ).take 0 = ([] : List ℕ) from rfl,
    show ([0, 1, 2] : List ℕ).take 1 = [0] from rfl,
    k2Inner_nil, hstop]

/-- Full run of `K2Search.fit` on two binary variables with perfectly
correlated data and `ordering = [0, 1]`: position 1 scans the empty
candidate slice `ordering[:0]`, so no edge is ever proposed and the
result is the empty graph. -/
theorem fit_V2_run :
    K2Search.fit ⟨[0, 1]⟩ [⟨2⟩, ⟨2⟩] [[1, 1], [1, 1], [2, 2], [2, 2]] =
    Except.ok ⟨List.range 2, []⟩ := by
  have hstat : statistics [⟨2⟩, ⟨2⟩] ⟨List.range 2, []⟩
      [[1, 1], [1, 1], [2, 2], [2, 2]] = Except.ok [[[2, 2]], [[2, 2]]] := by
    decide
  have hscore := bayesian_score_ok _ _ _ _ hstat
  simp only [K2Search.fit,
    show ([0, 1] : List ℕ).drop 1 = [1] from rfl,
    show ([⟨2⟩, ⟨2⟩] : List Variable).length = 2 from rfl,
    k2Outer, hscore,
    show ([0, 1] : List ℕ).take 0 = ([] : List ℕ) from rfl,
    k2Inner_nil]

/-- Full run of `K2Search.fit` with the non-permutation ordering `[0, 0]`:
no validation takes place, the search simply runs (node 0 is "position 1"
with the empty candidate slice) and returns the empty graph normally. -/
theorem fit_dup_run :
    K2Search.fit ⟨[0, 0]⟩ [⟨1⟩, ⟨1⟩] [] = Except.ok ⟨List.range 2, []⟩ := by
  simp only [K2Search.fit,
    show ([0, 0] : List ℕ).drop 1 = [0] from rfl,
    show ([⟨1⟩, ⟨1⟩] : List Variable).length = 2 from rfl,
    k2Outer, score_V1r1_empty,
    show ([0, 0] : List ℕ).take 0 = ([] : List ℕ) from rfl,
    k2Inner_nil]

/-- Full run of `K2Search.fit` on two constant variables with no data and
`ordering = [0, 1]`: the empty graph comes back. -/
theorem fit_V1r1_run :
    K2Search.fit ⟨[0, 1]⟩ [⟨1⟩, ⟨1⟩] [] = Except.ok ⟨List.range 2, []⟩ := by
  simp only [K2Search.fit,
    show ([0, 1] : List ℕ).drop 1 = [1] from rfl,
    show ([⟨1⟩, ⟨1⟩] : List Variable).length = 2 from rfl,
    k2Outer, score_V1r1_empty,
    show ([0, 1] : List ℕ).take 0 = ([] : List ℕ) from rfl,
    k2Inner_nil]

/-- When every scanned candidate and the child are already nodes, the scan
returns the *whole* graph unchanged: each tentative `add_edge` inserts no
new node and its paired `remove_edge` restores the edge list. -/
theorem k2ScanAux_graph (v : List Variable) (D : List (List ℤ)) (i : ℕ) :
    ∀ (l : List ℕ) (acc : WithBot ℝ × ℕ) (Gc : DiGraph)
      (yb' : WithBot ℝ) (jb' : ℕ) (Gc' : DiGraph),
      (∀ j ∈ l, j ∈ Gc.nodes) → i ∈ Gc.nodes →
      k2ScanAux v D i l acc Gc = Except.ok (yb', jb', Gc') →
      Gc' = Gc := by
  intro l
  induction l with
  | nil =>
    intro acc Gc yb' jb' Gc' _ _ hres
    simp only [k2ScanAux, Except.ok.injEq, Prod.mk.injEq] at hres
    exact hres.2.2.symm
  | cons a t ih =>
    intro acc Gc yb' jb' Gc' hns hi hres
    simp only [k2ScanAux] at hres
    by_cases hedge : (a, i) ∈ Gc.edges
    · rw [if_pos hedge] at hres
      exact ih acc Gc yb' jb' Gc' (fun j hj => hns j (List.mem_cons_of_mem _ hj))
        hi hres
    · rw [if_neg hedge] at hres
      have hG2 : (Gc.addEdge a i).removeEdge a i = Gc := by
        have hna : a ∈ Gc.nodes := hns a (List.mem_cons_self a t)
        simp only [DiGraph.addEdge, DiGraph.removeEdge, addNode, if_pos hna,
          if_pos hi, if_neg hedge]
        rw [List.erase_append_right _ hedge]
        simp
      split at hres
      · exact Except.noConfusion hres
      · rename_i y' heq
        rw [hG2] at hres
        by_cases hlt : acc.1 < (y' : WithBot ℝ)
        · rw [if_pos hlt] at hres
          exact ih _ Gc yb' jb' Gc'
            (fun j hj => hns j (List.mem_cons_of_mem _ hj)) hi hres
        · rw [if_neg hlt] at hres
          exact ih _ Gc yb' jb' Gc'
            (fun j hj => hns j (List.mem_cons_of_mem _ hj)) hi hres

/-- The candidate scan over two constant variables and no data: candidate
`0` is tried with score `0` and the graph comes back identical. -/
theorem scan_V1r1 :
    k2Scan [⟨1⟩, ⟨1⟩] [] 1 [0] ⟨List.range 2, []⟩ =
    Except.ok (((0 : ℝ) : WithBot ℝ), 0, ⟨List.range 2, []⟩) := by
  have hadd : (⟨List.range 2, []⟩ : DiGraph).addEdge 0 1 =
      ⟨List.range 2, [(0, 1)]⟩ := by decide
  have hrem : DiGraph.removeEdge ⟨List.range 2, [(0, 1)]⟩ 0 1 =
      ⟨List.range 2, []⟩ := by decide
  simp [k2Scan, k2ScanAux, hadd, score_V1r1_edge01, hrem, WithBot.bot_lt_coe]

/-- `loggamma 0 = 0` (`Real.Gamma 0 = 0` and `Real.log 0 = 0`). -/
theorem loggamma_zero : loggamma 0 = 0 := by
  rw [loggamma, Real.Gamma_zero, Real.log_zero]

/-- A list sum as a `Finset.range` sum of `getD` values. -/
theorem list_sum_getD (l : List ℝ) :
    l.sum = ∑ j in Finset.range l.length, l.getD j 0 := by
  induction l with
  | nil => simp
  | cons a t ih =>
    rw [List.sum_cons, List.length_cons, Finset.sum_range_succ', ih]
    simp [add_comm]

/-- `getD` after mapping row sums, with `List.sum [] = 0` as the default. -/
theorem getD_map_sum (X : List (List ℝ)) (j : ℕ) :
    (X.map List.sum).getD j 0 = (X.getD j []).sum := by
  induction X generalizing j with
  | nil => simp
  | cons a t ih =>
    cases j with
    | zero => simp
    | succ m => simpa using ih m

/-- `getD` after mapping a row function, with `map f [] = []` as default. -/
theorem getD_map_map (f : ℝ → ℝ) (X : List (List ℝ)) (j : ℕ) :
    (X.map (List.map f)).getD j [] = (X.getD j []).map f := by
  induction X generalizing j with
  | nil => simp
  | cons a t ih =>
    cases j with
    | zero => simp
    | succ m => simpa using ih m

/-- `getD` through `List.map loggamma`, using `loggamma 0 = 0` out of
range. -/
theorem getD_map_loggamma (row : List ℝ) (k : ℕ) :
    (row.map loggamma).getD k 0 = loggamma (row.getD k 0) := by
  induction row generalizing k with
  | nil => simp [loggamma_zero]
  | cons a t ih =>
    cases k with
    | zero => simp
    | succ m => simpa using ih m

/-- `getD` through a same-length `zipWith (+)`. -/
theorem getD_zipWith_add (a b : List ℝ) (h : a.length = b.length) (k : ℕ) :
    (List.zipWith (· + ·) a b).getD k 0 = a.getD k 0 + b.getD k 0 := by
  induction a generalizing b k with
  | nil =>
    cases b with
    | nil => simp
    | cons y t => exact absurd h (by simp)
  | cons x s ih =>
    cases b with
    | nil => exact absurd h (by simp)
    | cons y t =>
      cases k with
      | zero => simp
      | succ m =>
        simp only [List.zipWith_cons_cons, List.getD_cons_succ]
        exact ih t (by simpa using h) m

/-- `getD` of a row of a same-length `matAdd`. -/
theorem getD_matAdd (A B : List (List ℝ)) (h : A.length = B.length) (j : ℕ) :
    (matAdd A B).getD j [] = List.zipWith (· + ·) (A.getD j []) (B.getD j []) := by
  induction A generalizing B j with
  | nil =>
    cases b : B with
    | nil => simp [matAdd]
    | cons y t => rw [b] at h; exact absurd h (by simp)
  | cons x s ih =>
    cases B with
    | nil => exact absurd h (by simp)
    | cons y t =>
      cases j with
      | zero => simp [matAdd]
      | succ m =>
        simp only [matAdd, List.zipWith_cons_cons, List.getD_cons_succ]
        exact ih t (by simpa using h) m

/-- `matSum` as a `Finset.range` sum of row sums. -/
theorem matSum_eq_sum (X : List (List ℝ)) :
    matSum X = ∑ j in Finset.range X.length, (X.getD j []).sum := by
  rw [matSum, list_sum_getD, List.length_map]
  exact Finset.sum_congr rfl fun j _ => getD_map_sum X j

/-- `getD` through the final `zipWith` of the component score, using
`loggamma 0 = 0` out of range. -/
theorem getD_zipWith_loggamma (a b : List ℝ) (h : a.length = b.length) (j : ℕ) :
    (List.zipWith (fun a0 ms => loggamma (a0 + ms)) a b).getD j 0 =
      loggamma (a.getD j 0 + b.getD j 0) := by
  induction a generalizing b j with
  | nil =>
    cases b with
    | nil => simp [loggamma_zero]
    | cons y t => exact absurd h (by simp)
  | cons x s ih =>
    cases b with
    | nil => exact absurd h (by simp)
    | cons y t =>
      cases j with
      | zero => simp
      | succ m =>
        simp only [List.zipWith_cons_cons, List.getD_cons_succ]
        exact ih t (by simpa using h) m

/-- The component score as the closed-form double sum of the specification:
`Σ_jk (lgamma(α+M) − lgamma α) + Σ_j (lgamma α0 − lgamma (α0 + Σ_k M))`. -/
theorem component_formula (q r : ℕ) (M alpha : List (List ℝ))
    (hM : M.length = q) (ha : alpha.length = q)
    (hMr : ∀ row ∈ M, row.length = r) (har : ∀ row ∈ alpha, row.length = r) :
    bayesian_score_component M alpha =
      (∑ j in Finset.range q, ∑ k in Finset.range r,
        (loggamma ((alpha.getD j []).getD k 0 + (M.getD j []).getD k 0)
          - loggamma ((alpha.getD j []).getD k 0)))
      + ∑ j in Finset.range q,
        (loggamma (∑ k in Finset.range r, (alpha.getD j []).getD k 0)
          - loggamma ((∑ k in Finset.range r, (alpha.getD j []).getD k 0)
            + ∑ k in Finset.range r, (M.getD j []).getD k 0)) := by
  have haj : ∀ j, j < q → (alpha.getD j []).length = r := by
    intro j hj
    rw [List.getD_eq_getElem alpha [] (by rw [ha]; exact hj)]
    exact har _ (List.getElem_mem _)
  have hMj : ∀ j, j < q → (M.getD j []).length = r := by
    intro j hj
    rw [List.getD_eq_getElem M [] (by rw [hM]; exact hj)]
    exact hMr _ (List.getElem_mem _)
  have hMA : alpha.length = M.length := by rw [hM, ha]
  have hA : matSum ((matAdd alpha M).map (List.map loggamma)) =
      ∑ j in Finset.range q, ∑ k in Finset.range r,
        loggamma ((alpha.getD j []).getD k 0 + (M.getD j []).getD k 0) := by
    rw [matSum_eq_sum]
    have hlen : ((matAdd alpha M).map (List.map loggamma)).length = q := by
      simp [matAdd, hM, ha]
    rw [hlen]
    refine Finset.sum_congr rfl fun j hj => ?_
    rw [Finset.mem_range] at hj
    rw [getD_map_map, getD_matAdd alpha M hMA, list_sum_getD]
    have hl2 : ((List.zipWith (· + ·) (alpha.getD j []) (M.getD j [])).map
        loggamma).length = r := by
      rw [List.length_map, List.length_zipWith, haj j hj, hMj j hj, min_self]
    rw [hl2]
    refine Finset.sum_congr rfl fun k _ => ?_
    rw [getD_map_loggamma,
      getD_zipWith_add _ _ (by rw [haj j hj, hMj j hj])]
  have hB : matSum (alpha.map (List.map loggamma)) =
      ∑ j in Finset.range q, ∑ k in Finset.range r,
        loggamma ((alpha.getD j []).getD k 0) := by
    rw [matSum_eq_sum]
    have hlen : (alpha.map (List.map loggamma)).length = q := by simp [ha]
    rw [hlen]
    refine Finset.sum_congr rfl fun j hj => ?_
    rw [Finset.mem_range] at hj
    rw [getD_map_map, list_sum_getD]
    have hl2 : ((alpha.getD j []).map loggamma).length = r := by
      rw [List.length_map, haj j hj]
    rw [hl2]
    exact Finset.sum_congr rfl fun k _ => getD_map_loggamma _ _
  have hC : ((rowSums alpha).map loggamma).sum =
      ∑ j in Finset.range q,
        loggamma (∑ k in Finset.range r, (alpha.getD j []).getD k 0) := by
    rw [list_sum_getD]
    have hlen : ((rowSums alpha).map loggamma).length = q := by
      simp [rowSums, ha]
    rw [hlen]
    refine Finset.sum_congr rfl fun j hj => ?_
    rw [Finset.mem_range] at hj
    rw [getD_map_loggamma, rowSums, getD_map_sum, list_sum_getD, haj j hj]
  have hD : (List.zipWith (fun a0 ms => loggamma (a0 + ms)) (rowSums alpha)
      (rowSums M)).sum =
      ∑ j in Finset.range q,
        loggamma ((∑ k in Finset.range r, (alpha.getD j []).getD k 0)
          + ∑ k in Finset.range r, (M.getD j []).getD k 0) := by
    rw [list_sum_getD]
    have hlen : (List.zipWith (fun a0 ms => loggamma (a0 + ms))
        (rowSums alpha) (rowSums M)).length = q := by
      simp [rowSums, List.length_zipWith, hM, ha]
    rw [hlen]
    refine Finset.sum_congr rfl fun j hj => ?_
    rw [Finset.mem_range] at hj
    rw [getD_zipWith_loggamma _ _ (by simp [rowSums, hM, ha]), rowSums, rowSums,
      getD_map_sum, getD_map_sum, list_sum_getD, list_sum_getD,
      haj j hj, hMj j hj]
  simp only [bayesian_score_component]
  rw [hA, hB, hC, hD,
    show ∀ (A B C E : ℝ), A - B + C - E = (A - B) + (C - E) from by
      intro A B C E; ring]
  congr 1
  · rw [← Finset.sum_sub_distrib]
    simp only [← Finset.sum_sub_distrib]
  · rw [← Finset.sum_sub_distrib]

/-- `getD` on an all-zero replicated row is always zero. -/
theorem getD_replicate_zero (n m : ℕ) :
    (List.replicate n (0 : ℕ)).getD m 0 = 0 := by
  induction n generalizing m with
  | zero => simp
  | succ t ih =>
    cases m with
    | zero => simp
    | succ s => simpa using ih s

/-- For a parentless variable `i`, the counting step of `statistics` maps
the out-of-range state value `0` to column `r_i - 2` and the out-of-range
value `r_i + 1` to column `r_i - 1` of the single count row; both succeed
silently through numpy's negative / end-of-array indexing. -/
theorem statStep_parentless (r_i : ℕ) (hr : 2 ≤ r_i) (rL : List ℕ)
    (G : DiGraph) (M : List (List (List ℕ))) (i : ℕ) (row : List ℕ)
    (hpar : G.preds i = []) (hM : M.getD i [] = [row])
    (hrow : row.length = r_i) :
    (∀ o : List ℤ, o.getD i 0 = 0 →
      statStep rL G o M i = Except.ok
        (M.set i [row.set (r_i - 2) (row.getD (r_i - 2) 0 + 1)])) ∧
    (∀ o : List ℤ, o.getD i 0 = (r_i : ℤ) + 1 →
      statStep rL G o M i = Except.ok
        (M.set i [row.set (r_i - 1) (row.getD (r_i - 1) 0 + 1)])) := by
  constructor
  · intro o ho
    have hincr : incr2 (M.getD i []) (1 - 1) (o.getD i 0 - 1 - 1) =
        some [row.set (r_i - 2) (row.getD (r_i - 2) 0 + 1)] := by
      rw [hM, ho]
      have hp1 : pyIdx ([row] : List (List ℕ)).length (1 - 1) = some 0 := rfl
      have hp2 : pyIdx row.length ((0 : ℤ) - 1 - 1) = some (r_i - 2) := by
        rw [hrow, pyIdx, if_neg (by omega), if_pos (by omega)]
        congr 1
        omega
      simp only [incr2, hp1, List.getD_cons_zero, hp2, List.set_cons_zero]
    simp only [statStep, hpar, if_pos rfl, if_true, hincr]
  · intro o ho
    have hincr : incr2 (M.getD i []) (1 - 1) (o.getD i 0 - 1 - 1) =
        some [row.set (r_i - 1) (row.getD (r_i - 1) 0 + 1)] := by
      rw [hM, ho]
      have hp1 : pyIdx ([row] : List (List ℕ)).length (1 - 1) = some 0 := rfl
      have hp2 : pyIdx row.length ((r_i : ℤ) + 1 - 1 - 1) = some (r_i - 1) := by
        rw [hrow, pyIdx, if_pos (by omega)]
        congr 1
        omega
      simp only [incr2, hp1, List.getD_cons_zero, hp2, List.set_cons_zero]
    simp only [statStep, hpar, if_pos rfl, if_true, hincr]

/-- Running full `statistics` on a single parentless variable with the
out-of-range state value `0`: the count lands in column `r_i - 2`. -/
theorem statistics_fold_zero (r_i : ℕ) (hr : 2 ≤ r_i) :
    statistics [⟨r_i⟩] ⟨List.range 1, []⟩ [[0]] =
      Except.ok [[(List.replicate r_i 0).set (r_i - 2) 1]] := by
  have hstep := (statStep_parentless r_i hr [r_i] ⟨List.range 1, []⟩
    [[List.replicate r_i 0]] 0 (List.replicate r_i 0) rfl rfl
    (List.length_replicate _ _)).1 [0] rfl
  simp only [List.set_cons_zero, getD_replicate_zero, Nat.zero_add] at hstep
  simp [statistics, List.foldlM]
  exact hstep

/-- Running full `statistics` on a single parentless variable with the
out-of-range state value `r_i + 1`: the count lands in column `r_i - 1`. -/
theorem statistics_fold_succ (r_i : ℕ) (hr : 2 ≤ r_i) :
    statistics [⟨r_i⟩] ⟨List.range 1, []⟩ [[(r_i : ℤ) + 1]] =
      Except.ok [[(List.replicate r_i 0).set (r_i - 1) 1]] := by
  have hstep := (statStep_parentless r_i hr [r_i] ⟨List.range 1, []⟩
    [[List.replicate r_i 0]] 0 (List.replicate r_i 0) rfl rfl
    (List.length_replicate _ _)).2 [(r_i : ℤ) + 1] rfl
  simp only [List.set_cons_zero, getD_replicate_zero, Nat.zero_add] at hstep
  simp [statistics, List.foldlM]
  exact hstep

/-- C1 (refuted; claim asserts the scan at position `k` tries exactly
`ordering[0..k-1]`): on `ordering = [0, 1]` with two binary variables and
perfectly correlated data, position 1 would try candidate 0 and (the edge
being strictly improving) add `0 → 1`; the code instead passes the slice
`ordering[:k]` with `k` off by one, so position 1 scans an empty candidate
list and `fit` returns no edges at all. -/
theorem C1_candidate_slice_eval :
    (K2Search.fit ⟨[0, 1]⟩ [⟨2⟩, ⟨2⟩] [[1, 1], [1, 1], [2, 2], [2, 2]]).map
      DiGraph.edges = Except.ok [] := by
  rw [fit_V2_run]
  rfl

/-- C2 (refuted; claim asserts the edge set `{(0, 1)}`): on the concrete
three-binary-variable scenario with `ordering = [0, 1, 2]`, variable 1 a
copy of variable 0 and variable 2 independent noise, `K2Search.fit`
returns the empty edge set — the off-by-one candidate slice never offers
candidate 0 to child 1, and the only tried edge `0 → 2` does not improve
the score. -/
theorem C2_concrete_scenario_eval :
    (K2Search.fit ⟨[0, 1, 2]⟩ [⟨2⟩, ⟨2⟩, ⟨2⟩]
      [[1, 1, 1], [1, 1, 2], [2, 2, 1], [2, 2, 2]]).map
      DiGraph.edges = Except.ok [] := by
  rw [fit_V3_run]
  rfl

/-- C3 (refuted; claim asserts the in-range row `[1]` increments
`CountTensor[0][0, 0]`): for a single parentless binary variable the code
increments column `o[i] - 2`, i.e. cell `(0, 1)` via numpy index `-1`, so
the count tensor is `[[0, 1]]` instead of the claimed `[[1, 0]]`. -/
theorem C3_counting_cell_eval :
    statistics [⟨2⟩] ⟨List.range 1, []⟩ [[1]] = Except.ok [[[0, 1]]] := by
  decide

/-- C4 (refuted; claim asserts out-of-range values fail with a typed
error returned to the caller): the out-of-range value `0` is silently
folded into the counts (cell `(0, 0)` via numpy index `-2`), and the
value `4` aborts the whole process (`sys.exit(1)`, modelled as the
`.error` outcome) instead of returning a `DataOutOfRange` error. -/
theorem C4_out_of_range_eval :
    statistics [⟨2⟩] ⟨List.range 1, []⟩ [[0]] = Except.ok [[[1, 0]]] ∧
    statistics [⟨2⟩] ⟨List.range 1, []⟩ [[4]] = Except.error () := by
  constructor <;> decide

/-- C5: `bayesian_score_component` equals the closed-form specification
`Σ_jk [lgamma(α+M) − lgamma α] + Σ_j [lgamma α0 − lgamma(α0 + Σ_k M)]`
for every same-shape pair of tensors, and `bayesian_score` is the sum of
the per-variable components over all variables. -/
theorem C5_score_formula :
    (∀ (q r : ℕ) (M alpha : List (List ℝ)),
      M.length = q → alpha.length = q →
      (∀ row ∈ M, row.length = r) → (∀ row ∈ alpha, row.length = r) →
      bayesian_score_component M alpha =
        (∑ j in Finset.range q, ∑ k in Finset.range r,
          (loggamma ((alpha.getD j []).getD k 0 + (M.getD j []).getD k 0)
            - loggamma ((alpha.getD j []).getD k 0)))
        + ∑ j in Finset.range q,
          (loggamma (∑ k in Finset.range r, (alpha.getD j []).getD k 0)
            - loggamma ((∑ k in Finset.range r, (alpha.getD j []).getD k 0)
              + ∑ k in Finset.range r, (M.getD j []).getD k 0))) ∧
    (∀ (v : List Variable) (G : DiGraph) (D : List (List ℤ))
      (M : List (List (List ℕ))), statistics v G D = Except.ok M →
      bayesian_score v G D = Except.ok
        (((List.range v.length).map fun i =>
          bayesian_score_component (matOfNat (M.getD i []))
            (matOfNat ((prior v G).getD i []))).sum)) :=
  ⟨fun q r M alpha h1 h2 h3 h4 => component_formula q r M alpha h1 h2 h3 h4,
   fun v G D M h => bayesian_score_ok v G D M h⟩

/-- Witness for C5 at the concrete tensors `M = [[2]]`, `α = [[1]]` and at
the one-variable empty-data score. -/
theorem C5_score_formula_witness :
    (([[(2 : ℝ)]] : List (List ℝ)).length = 1 ∧
     ([[(1 : ℝ)]] : List (List ℝ)).length = 1 ∧
     (∀ row ∈ ([[(2 : ℝ)]] : List (List ℝ)), row.length = 1) ∧
     (∀ row ∈ ([[(1 : ℝ)]] : List (List ℝ)), row.length = 1) ∧
     bayesian_score_component [[(2 : ℝ)]] [[(1 : ℝ)]] =
       (∑ j in Finset.range 1, ∑ k in Finset.range 1,
         (loggamma ((([[(1 : ℝ)]] : List (List ℝ)).getD j []).getD k 0
             + (([[(2 : ℝ)]] : List (List ℝ)).getD j []).getD k 0)
           - loggamma ((([[(1 : ℝ)]] : List (List ℝ)).getD j []).getD k 0)))
       + ∑ j in Finset.range 1,
         (loggamma (∑ k in Finset.range 1,
             (([[(1 : ℝ)]] : List (List ℝ)).getD j []).getD k 0)
           - loggamma ((∑ k in Finset.range 1,
               (([[(1 : ℝ)]] : List (List ℝ)).getD j []).getD k 0)
             + ∑ k in Finset.range 1,
               (([[(2 : ℝ)]] : List (List ℝ)).getD j []).getD k 0))) ∧
    (statistics [⟨1⟩] ⟨List.range 1, []⟩ [] = Except.ok [[[0]]] ∧
     bayesian_score [⟨1⟩] ⟨List.range 1, []⟩ [] = Except.ok
       (((List.range ([⟨1⟩] : List Variable).length).map fun i =>
         bayesian_score_component
           (matOfNat (([[[0]]] : List (List (List ℕ))).getD i []))
           (matOfNat ((prior [⟨1⟩] ⟨List.range 1, []⟩).getD i []))).sum)) :=
  ⟨⟨rfl, rfl, by simp, by simp,
    C5_score_formula.1 1 1 [[(2 : ℝ)]] [[(1 : ℝ)]] rfl rfl (by simp) (by simp)⟩,
   by decide,
   C5_score_formula.2 [⟨1⟩] ⟨List.range 1, []⟩ [] [[[0]]] (by decide)⟩

/-- C6: for a permutation ordering, every edge of the returned graph goes
from an earlier to a later ordering position, and consequently the graph
is acyclic. -/
theorem C6_ordering_acyclic (ordering : List ℕ) (v : List Variable)
    (D : List (List ℤ)) (hperm : ordering.Perm (List.range v.length))
    (G : DiGraph) (hres : K2Search.fit ⟨ordering⟩ v D = Except.ok G) :
    (∀ e ∈ G.edges, ordering.indexOf e.1 < ordering.indexOf e.2) ∧
      G.Acyclic := by
  have hnd : ordering.Nodup := hperm.nodup_iff.mpr (List.nodup_range _)
  simp only [K2Search.fit] at hres
  have hedges : ∀ e ∈ G.edges,
      ordering.indexOf e.1 < ordering.indexOf e.2 := by
    refine k2Outer_inv v D ordering
      (fun e => ordering.indexOf e.1 < ordering.indexOf e.2)
      (ordering.drop 1) 0 ⟨List.range v.length, []⟩ G ?_ (by simp) hres
    intro m i' hm j hj
    show ordering.indexOf j < ordering.indexOf i'
    rw [List.get?_drop] at hm
    obtain ⟨hlt, hget⟩ := List.get?_eq_some.mp hm
    have hidx_i : ordering.indexOf i' = 1 + m := by
      rw [← hget, List.get_eq_getElem]
      exact nodup_indexOf_getElem ordering hnd (1 + m) hlt
    rw [zero_add] at hj
    rw [List.mem_take_iff_getElem] at hj
    obtain ⟨idx, hidx, hj⟩ := hj
    have hjlen : idx < ordering.length := lt_of_lt_of_le hidx (min_le_right _ _)
    have hidx_j : ordering.indexOf j = idx := by
      rw [← hj]
      exact nodup_indexOf_getElem ordering hnd idx hjlen
    rw [hidx_i, hidx_j]
    have hidxm : idx < m := lt_of_lt_of_le hidx (min_le_left _ _)
    omega
  exact ⟨hedges,
    DiGraph.acyclic_of_increasing G (fun x => ordering.indexOf x) hedges⟩

/-- Witness for C6 on the two-constant-variable run with
`ordering = [0, 1]` and no data. -/
theorem C6_ordering_acyclic_witness :
    ([0, 1] : List ℕ).Perm (List.range ([⟨1⟩, ⟨1⟩] : List Variable).length) ∧
    K2Search.fit ⟨[0, 1]⟩ [⟨1⟩, ⟨1⟩] [] = Except.ok ⟨List.range 2, []⟩ ∧
    ((∀ e ∈ (⟨List.range 2, []⟩ : DiGraph).edges,
        ([0, 1] : List ℕ).indexOf e.1 < ([0, 1] : List ℕ).indexOf e.2) ∧
      DiGraph.Acyclic ⟨List.range 2, []⟩) :=
  ⟨List.Perm.refl _, fit_V1r1_run,
    C6_ordering_acyclic [0, 1] [⟨1⟩, ⟨1⟩] [] (List.Perm.refl _) _ fit_V1r1_run⟩

/-- C7 (refuted; claim asserts non-permutation orderings are rejected
with an `InvalidOrdering` error before scoring): `K2Search.fit` performs
no validation whatsoever — on the duplicated ordering `[0, 0]` it scores
the graph and returns an ordinary `.ok` result. -/
theorem C7_no_ordering_validation :
    K2Search.fit ⟨[0, 0]⟩ [⟨1⟩, ⟨1⟩] [] = Except.ok ⟨List.range 2, []⟩ :=
  fit_dup_run

/-- C8: the inner `while True:` loop, run as a step-indexed process,
reaches its exit within (number of untried candidate edges) + 1
iterations and agrees with the loop's value; the outer loop visits
exactly `length(ordering) - 1` positions (`ordering[1:]`). -/
theorem C8_inner_loop_terminates :
    (∀ (v : List Variable) (D : List (List ℤ)) (i : ℕ) (cands : List ℕ)
      (y : WithBot ℝ) (G : DiGraph),
      k2InnerFuel v D i cands
        ((cands.toFinset.filter (fun j => (j, i) ∉ G.edges)).card + 1) y G =
        some (k2Inner v D i cands y G)) ∧
    (∀ ordering : List ℕ, (ordering.drop 1).length = ordering.length - 1) :=
  ⟨fun v D i cands y G =>
     k2Inner_eq_fuel v D i cands _ y G (Nat.lt_succ_self _),
   fun ordering => by simp⟩

/-- C9: scoring is pure — evaluating `bayesian_score` twice on identical
inputs yields the identical value, and the candidate scan (the only place
the score is consulted on temporarily modified graphs) hands back the
working graph with node list and edge list unchanged whenever the
scanned candidates and the child are existing nodes. -/
theorem C9_score_pure (v : List Variable) (D : List (List ℤ)) :
    (∀ G : DiGraph, bayesian_score v G D = bayesian_score v G D) ∧
    (∀ (i : ℕ) (cands : List ℕ) (G : DiGraph) (yb : WithBot ℝ) (jb : ℕ)
      (G' : DiGraph), (∀ j ∈ cands, j ∈ G.nodes) → i ∈ G.nodes →
      k2Scan v D i cands G = Except.ok (yb, jb, G') → G' = G) :=
  ⟨fun _ => rfl,
   fun i cands G yb jb G' hns hi hscan =>
     k2ScanAux_graph v D i cands ((⊥ : WithBot ℝ), 0) G yb jb G' hns hi hscan⟩

/-- Witness for C9 on the two-constant-variable scan of candidate list
`[0]` for child `1` over the empty graph on nodes `{0, 1}`. -/
theorem C9_score_pure_witness :
    (∀ j ∈ ([0] : List ℕ), j ∈ (⟨List.range 2, []⟩ : DiGraph).nodes) ∧
    (1 ∈ (⟨List.range 2, []⟩ : DiGraph).nodes) ∧
    k2Scan [⟨1⟩, ⟨1⟩] [] 1 [0] ⟨List.range 2, []⟩ =
      Except.ok (((0 : ℝ) : WithBot ℝ), 0, ⟨List.range 2, []⟩) ∧
    (⟨List.range 2, []⟩ : DiGraph) = ⟨List.range 2, []⟩ :=
  ⟨by decide, by decide, scan_V1r1,
    (C9_score_pure [⟨1⟩, ⟨1⟩] []).2 1 [0] ⟨List.range 2, []⟩
      (((0 : ℝ) : WithBot ℝ)) 0 ⟨List.range 2, []⟩ (by decide) (by decide)
      scan_V1r1⟩

/-- C10: for a parentless variable with `r_i ≥ 2`, the counting step does
not fail on the out-of-range state values `0` and `r_i + 1`: value `0` is
silently counted in column `r_i - 2` (numpy index `-2`) and value
`r_i + 1` in column `r_i - 1`, both in the single row of the `(1, r_i)`
tensor; full `statistics` on such a row returns `.ok` with the folded
count. -/
theorem C10_silent_fold (r_i : ℕ) (hr : 2 ≤ r_i) :
    (∀ (rL : List ℕ) (G : DiGraph) (M : List (List (List ℕ))) (i : ℕ)
      (row : List ℕ), G.preds i = [] → M.getD i [] = [row] →
      row.length = r_i →
      (∀ o : List ℤ, o.getD i 0 = 0 →
        statStep rL G o M i = Except.ok
          (M.set i [row.set (r_i - 2) (row.getD (r_i - 2) 0 + 1)])) ∧
      (∀ o : List ℤ, o.getD i 0 = (r_i : ℤ) + 1 →
        statStep rL G o M i = Except.ok
          (M.set i [row.set (r_i - 1) (row.getD (r_i - 1) 0 + 1)]))) ∧
    statistics [⟨r_i⟩] ⟨List.range 1, []⟩ [[0]] =
      Except.ok [[(List.replicate r_i 0).set (r_i - 2) 1]] ∧
    statistics [⟨r_i⟩] ⟨List.range 1, []⟩ [[(r_i : ℤ) + 1]] =
      Except.ok [[(List.replicate r_i 0).set (r_i - 1) 1]] :=
  ⟨fun rL G M i row hpar hM hrow =>
     statStep_parentless r_i hr rL G M i row hpar hM hrow,
   statistics_fold_zero r_i hr, statistics_fold_succ r_i hr⟩

/-- Witness for C10 at `r_i = 2`. -/
theorem C10_silent_fold_witness :
    2 ≤ 2 ∧
    ((∀ (rL : List ℕ) (G : DiGraph) (M : List (List (List ℕ))) (i : ℕ)
      (row : List ℕ), G.preds i = [] → M.getD i [] = [row] →
      row.length = 2 →
      (∀ o : List ℤ, o.getD i 0 = 0 →
        statStep rL G o M i = Except.ok
          (M.set i [row.set (2 - 2) (row.getD (2 - 2) 0 + 1)])) ∧
      (∀ o : List ℤ, o.getD i 0 = ((2 : ℕ) : ℤ) + 1 →
        statStep rL G o M i = Except.ok
          (M.set i [row.set (2 - 1) (row.getD (2 - 1) 0 + 1)]))) ∧
    statistics [⟨2⟩] ⟨List.range 1, []⟩ [[0]] =
      Except.ok [[(List.replicate 2 0).set (2 - 2) 1]] ∧
    statistics [⟨2⟩] ⟨List.range 1, []⟩ [[((2 : ℕ) : ℤ) + 1]] =
      Except.ok [[(List.replicate 2 0).set (2 - 1) 1]]) :=
  ⟨by decide, C10_silent_fold 2 (by decide)⟩
